import Mathlib

/-!
Verification of the leave-management system (`src/echo.py`).

The Python module keeps four global stores (`employees`, `leave_requests`,
`leave_balance`, `knowledge_base`) and exposes plain functions over them.
We embed the stores as explicit state and every operation as a pure function
from the state (plus the operation's arguments and the current clock reading,
which Python obtains from `datetime.now()`) to a result together with the
next state.  Python dictionaries are embedded as insertion-ordered
association lists: assigning to an existing key updates it in place and a
new key is appended, which is exactly the semantics of `dict` assignment.
-/

namespace LeaveSys

/-- Lookup in an insertion-ordered association list (Python `dict[k]` /
`dict.get(k)` on string keys). -/
def lookupA {α : Type} (l : List (String × α)) (k : String) : Option α :=
  match l with
  | [] => none
  | (k', v) :: rest => if k' = k then some v else lookupA rest k

/-- Assignment `d[k] = v` on a Python dict: an existing key is updated in
place, a fresh key is appended at the end. -/
def setA {α : Type} (l : List (String × α)) (k : String) (v : α) :
    List (String × α) :=
  match l with
  | [] => [(k, v)]
  | (k', v') :: rest => if k' = k then (k, v) :: rest else (k', v') :: setA rest k v

theorem lookupA_setA_self {α : Type} (l : List (String × α)) (k : String) (v : α) :
    lookupA (setA l k v) k = some v := by
  induction l with
  | nil => simp [lookupA, setA]
  | cons p rest ih =>
    obtain ⟨k', v'⟩ := p
    by_cases h : k' = k
    · simp [lookupA, setA, h]
    · simp [lookupA, setA, h, ih]

theorem lookupA_setA_other {α : Type} (l : List (String × α)) (k k' : String) (v : α)
    (h : k' ≠ k) : lookupA (setA l k v) k' = lookupA l k' := by
  induction l with
  | nil => simp [lookupA, setA, Ne.symm h]
  | cons p rest ih =>
    obtain ⟨k₀, v₀⟩ := p
    by_cases h₀ : k₀ = k
    · subst h₀
      simp [lookupA, setA, Ne.symm h]
    · simp [lookupA, setA, h₀, ih]

/-! ### Calendar dates

`request_leave` parses its two date arguments with
`datetime.strptime(s, "%Y-%m-%d")` and measures `(end - start).days`.
`strptime` accepts a four-digit year, a one- or two-digit month in `1..12`
and a one- or two-digit day, and the `datetime` constructor then checks the
day against the length of the month (and that the year is at least 1).
The difference in days between two dates equals the difference of their
proleptic-Gregorian ordinals (`datetime.toordinal`), embedded here as
`toOrdinal`. -/

structure PDate where
  year : Nat
  month : Nat
  day : Nat
deriving DecidableEq, Repr

def isLeapYear (y : Nat) : Bool :=
  y % 4 == 0 && (y % 100 != 0 || y % 400 == 0)

def daysInMonth (y m : Nat) : Nat :=
  if m = 2 then (if isLeapYear y then 29 else 28)
  else if m = 4 ∨ m = 6 ∨ m = 9 ∨ m = 11 then 30
  else 31

/-- Days in the months of year `y` strictly before month `m`. -/
def daysBeforeMonth (y m : Nat) : Nat :=
  (List.range (m - 1)).foldl (fun a i => a + daysInMonth y (i + 1)) 0

/-- Proleptic-Gregorian day number, with `0001-01-01 ↦ 1`; this is Python's
`date.toordinal`. -/
def toOrdinal (d : PDate) : Nat :=
  365 * (d.year - 1) + (d.year - 1) / 4 - (d.year - 1) / 100 + (d.year - 1) / 400
    + daysBeforeMonth d.year d.month + d.day

/-- Decimal value of a digit string (callers establish all characters are
digits; leading zeros are allowed and do not change the value). -/
def decDigits (l : List Char) : Nat :=
  l.foldl (fun a c => 10 * a + (c.toNat - 48)) 0

/-- Splitting a character list at every character satisfying `p`, keeping
empty pieces — the behavior of splitting a Python string on a separator. -/
def splitOnP (p : Char → Bool) : List Char → List (List Char)
  | [] => [[]]
  | c :: t =>
    if p c then [] :: splitOnP p t
    else
      match splitOnP p t with
      | h :: r => (c :: h) :: r
      | [] => [[c]]

/-- Python `str.lower()` (character-wise; the stored data is ASCII). -/
def lowerL (l : List Char) : List Char := l.map Char.toLower

/-- `datetime.strptime(s, "%Y-%m-%d")`: four-digit year, dash, one- or
two-digit month, dash, one- or two-digit day, the whole string consumed,
and the resulting (year, month, day) a valid calendar date with year ≥ 1. -/
def parseDate (s : String) : Option PDate :=
  match splitOnP (fun c => c = '-') s.data with
  | [ys, ms, ds] =>
    if ys.length = 4 ∧ ys.all Char.isDigit ∧
       (ms.length = 1 ∨ ms.length = 2) ∧ ms.all Char.isDigit ∧
       (ds.length = 1 ∨ ds.length = 2) ∧ ds.all Char.isDigit then
      let y := decDigits ys
      let m := decDigits ms
      let d := decDigits ds
      if 1 ≤ y ∧ 1 ≤ m ∧ m ≤ 12 ∧ 1 ≤ d ∧ d ≤ daysInMonth y m then
        some ⟨y, m, d⟩
      else none
    else none
  | _ => none

/-! ### The data model of the leave engine -/

structure Employee where
  employee_id : String
  name : String
  email : String
  department : String
  join_date : String
  status : String
deriving DecidableEq, Repr

/-- A record of the `leave_requests` list.  The keys `rejection_reason`,
`rejected_by` and `rejected_date` are absent until `reject_leave` adds
them, so they are embedded as `Option` (as are `approved_by` and
`approved_date`, which are created holding `None`). -/
structure LeaveRequest where
  request_id : String
  employee_id : String
  employee_name : String
  start_date : String
  end_date : String
  days : Int
  leave_type : String
  reason : String
  status : String
  submitted_date : String
  approved_by : Option String
  approved_date : Option String
  rejection_reason : Option String
  rejected_by : Option String
  rejected_date : Option String
deriving DecidableEq, Repr

structure SysState where
  employees : List (String × Employee)
  leave_requests : List LeaveRequest
  leave_balance : List (String × Int)
deriving DecidableEq, Repr

def emptySys : SysState := ⟨[], [], []⟩

/-- `leave_balance.get(e, 0)` on a raw ledger. -/
def balGL (bal : List (String × Int)) (e : String) : Int :=
  (lookupA bal e).getD 0

/-- `leave_balance.get(e, 0)`. -/
def balG (st : SysState) (e : String) : Int :=
  balGL st.leave_balance e

/-- Each Python tool returns either a dict carrying an `"error"` message or
a success dict; every error message template of the source is one
constructor here, carrying the values interpolated into the message. -/
inductive LMError where
  | employeeNotFound (employee_id : String)
  | employeeExists (employee_id : String)
  | invalidDateFormat
  | endBeforeStart
  | insufficientBalance (available : Int) (requested : Int)
  | requestAlreadyResolved (status : String)
  | requestNotFound (request_id : String)
deriving DecidableEq, Repr

/-- The success-or-error shape of every tool's return dict. -/
inductive LRes (α : Type) where
  | ok (val : α)
  | error (err : LMError)
deriving DecidableEq, Repr

structure RegisterOk where
  employee_id : String
  initial_leave_balance : Int
deriving DecidableEq, Repr

structure RequestOk where
  request_id : String
  employee : String
  dates : String
  days : Int
  status : String
deriving DecidableEq, Repr

structure ApproveOk where
  request_id : String
  employee : String
  days : Int
  new_balance : Int
deriving DecidableEq, Repr

structure RejectOk where
  request_id : String
  employee : String
  reason : String
deriving DecidableEq, Repr

/-! ### Operations -/

/-- `register_employee`; `today` is `datetime.now().strftime("%Y-%m-%d")`. -/
def register_employee (st : SysState) (employee_id name email department today : String) :
    LRes RegisterOk × SysState :=
  if (lookupA st.employees employee_id).isSome then
    (.error (.employeeExists employee_id), st)
  else
    (.ok ⟨employee_id, 20⟩,
      { st with
        employees := setA st.employees employee_id
          ⟨employee_id, name, email, department, today, "Active"⟩
        leave_balance := setA st.leave_balance employee_id 20 })

/-- `f"REQ{n:04d}"`: decimal digits of `n` left-padded with zeros to width
four. -/
def reqIdOf (n : Nat) : String :=
  "REQ" ++ String.mk (List.replicate (4 - (Nat.repr n).length) '0') ++ Nat.repr n

/-- `request_leave`; `today` is the submission timestamp read from the
clock. -/
def request_leave (st : SysState)
    (employee_id start_date end_date leave_type reason today : String) :
    LRes RequestOk × SysState :=
  match lookupA st.employees employee_id with
  | none => (.error (.employeeNotFound employee_id), st)
  | some emp =>
    match parseDate start_date, parseDate end_date with
    | some ds, some de =>
      let days_requested : Int := (toOrdinal de : Int) - (toOrdinal ds : Int) + 1
      if days_requested ≤ 0 then (.error .endBeforeStart, st)
      else
        let balanceOk :=
          if lowerL leave_type.data = "annual".data then
            let available := balG st employee_id
            if days_requested > available then
              some (LMError.insufficientBalance available days_requested)
            else none
          else none
        match balanceOk with
        | some e => (.error e, st)
        | none =>
          let request_id := reqIdOf (st.leave_requests.length + 1)
          let req : LeaveRequest :=
            ⟨request_id, employee_id, emp.name, start_date, end_date,
              days_requested, leave_type, reason, "Pending", today,
              none, none, none, none, none⟩
          (.ok ⟨request_id, emp.name, start_date ++ " to " ++ end_date,
              days_requested, "Pending"⟩,
            { st with leave_requests := st.leave_requests ++ [req] })
    | _, _ => (.error .invalidDateFormat, st)

/-- The `for req in leave_requests` loop of `approve_leave`: the first
request whose id matches is inspected and, when Pending, updated in place
(deducting from the balance first when the leave type is annual,
case-insensitively). -/
def approveLoop (request_id approver_id today : String)
    (bal : List (String × Int)) :
    List LeaveRequest → LRes ApproveOk × List LeaveRequest × List (String × Int)
  | [] => (.error (.requestNotFound request_id), [], bal)
  | r :: rest =>
    if r.request_id = request_id then
      if r.status ≠ "Pending" then
        (.error (.requestAlreadyResolved r.status), r :: rest, bal)
      else
        let bal' :=
          if lowerL r.leave_type.data = "annual".data then
            setA bal r.employee_id ((lookupA bal r.employee_id).getD 0 - r.days)
          else bal
        let r' := { r with status := "Approved",
                           approved_by := some approver_id,
                           approved_date := some today }
        (.ok ⟨request_id, r.employee_name, r.days,
            (lookupA bal' r.employee_id).getD 0⟩,
          r' :: rest, bal')
    else
      let (res, rest', bal') := approveLoop request_id approver_id today bal rest
      (res, r :: rest', bal')

def approve_leave (st : SysState) (request_id approver_id today : String) :
    LRes ApproveOk × SysState :=
  let (res, reqs', bal') :=
    approveLoop request_id approver_id today st.leave_balance st.leave_requests
  (res, { st with leave_requests := reqs', leave_balance := bal' })

/-- The `for req in leave_requests` loop of `reject_leave`; the balance is
never touched. -/
def rejectLoop (request_id reason approver_id today : String) :
    List LeaveRequest → LRes RejectOk × List LeaveRequest
  | [] => (.error (.requestNotFound request_id), [])
  | r :: rest =>
    if r.request_id = request_id then
      if r.status ≠ "Pending" then
        (.error (.requestAlreadyResolved r.status), r :: rest)
      else
        let r' := { r with status := "Rejected",
                           rejection_reason := some reason,
                           rejected_by := some approver_id,
                           rejected_date := some today }
        (.ok ⟨request_id, r.employee_name, reason⟩, r' :: rest)
    else
      let (res, rest') := rejectLoop request_id reason approver_id today rest
      (res, r :: rest')

def reject_leave (st : SysState) (request_id reason approver_id today : String) :
    LRes RejectOk × SysState :=
  let (res, reqs') := rejectLoop request_id reason approver_id today st.leave_requests
  (res, { st with leave_requests := reqs' })

structure AddBalanceOk where
  employee : String
  old_balance : Int
  new_balance : Int
deriving DecidableEq, Repr

/-- `add_leave_balance` (admin tool). -/
def add_leave_balance (st : SysState) (employee_id : String) (days : Int) :
    LRes AddBalanceOk × SysState :=
  match lookupA st.employees employee_id with
  | none => (.error (.employeeNotFound employee_id), st)
  | some emp =>
    let newBal := (lookupA st.leave_balance employee_id).getD 0 + days
    (.ok ⟨emp.name, newBal - days, newBal⟩,
      { st with leave_balance := setA st.leave_balance employee_id newBal })

/-! ### Traces through the public interface

The four operations of the request state machine, packaged so that
reachable states are exactly those produced by running a list of calls from
the empty stores.  Each constructor carries the caller's arguments plus the
clock reading the Python code would take at that call. -/

inductive Op where
  | register (employee_id name email department today : String)
  | request (employee_id start_date end_date leave_type reason today : String)
  | approve (request_id approver_id today : String)
  | reject (request_id reason approver_id today : String)
deriving DecidableEq, Repr

def step (st : SysState) : Op → SysState
  | .register e n em d t => (register_employee st e n em d t).2
  | .request e sd ed lt rs t => (request_leave st e sd ed lt rs t).2
  | .approve rid ap t => (approve_leave st rid ap t).2
  | .reject rid rs ap t => (reject_leave st rid rs ap t).2

def run (ops : List Op) : SysState :=
  ops.foldl step emptySys

/-! ### Pending-annual accounting

Submission checks an Annual request against the ledger, but approval does
not re-check, so several concurrently Pending annual requests can jointly
exceed the balance.  The accounting below measures exactly that: the total
days of Pending annual requests per employee. -/

/-- `r` is a Pending request of employee `e` of the balance-checked
(annual, case-insensitively) class. -/
def isPendAnn (e : String) (r : LeaveRequest) : Bool :=
  r.employee_id == e && r.status == "Pending" && lowerL r.leave_type.data == "annual".data

theorem isPendAnn_iff {e : String} {r : LeaveRequest} :
    isPendAnn e r = true ↔
      r.employee_id = e ∧ r.status = "Pending" ∧ lowerL r.leave_type.data = "annual".data := by
  simp [isPendAnn, Bool.and_eq_true, and_assoc]

/-- Total days of Pending annual requests of `e` in a request log. -/
def pendSumL (e : String) (l : List LeaveRequest) : Int :=
  ((l.filter (isPendAnn e)).map (fun r => r.days)).sum

theorem pendSumL_nil (e : String) : pendSumL e [] = 0 := rfl

theorem pendSumL_cons (e : String) (r : LeaveRequest) (l : List LeaveRequest) :
    pendSumL e (r :: l) = (if isPendAnn e r then r.days else 0) + pendSumL e l := by
  unfold pendSumL
  rw [List.filter_cons]
  by_cases h : isPendAnn e r
  · rw [if_pos h, if_pos h, List.map_cons, List.sum_cons]
  · rw [if_neg h, if_neg h, zero_add]

theorem pendSumL_append (e : String) (l1 l2 : List LeaveRequest) :
    pendSumL e (l1 ++ l2) = pendSumL e l1 + pendSumL e l2 := by
  unfold pendSumL
  rw [List.filter_append, List.map_append, List.sum_append]

theorem pendSumL_nonneg (e : String) (l : List LeaveRequest)
    (h : ∀ r ∈ l, (1 : Int) ≤ r.days) : 0 ≤ pendSumL e l := by
  unfold pendSumL
  apply List.sum_nonneg
  intro x hx
  obtain ⟨r, hr, hrx⟩ := List.mem_map.mp hx
  have := h r (List.mem_of_mem_filter hr)
  omega

theorem pendSumL_singleton_filter_nil {e : String} {l : List LeaveRequest}
    (h : l.filter (isPendAnn e) = []) : pendSumL e l = 0 := by
  unfold pendSumL
  rw [h]
  rfl

/-- A trace condition on annual submissions: whenever an Annual request is
submitted, the employee has no Pending annual request at that moment.  The
other operations are unconstrained. -/
def annSubmitOK (st : SysState) : Op → Bool
  | .request e _ _ lt _ _ =>
    if lowerL lt.data = "annual".data then
      (st.leave_requests.filter (isPendAnn e)).isEmpty
    else true
  | _ => true

def safeOps (st : SysState) : List Op → Bool
  | [] => true
  | op :: ops => annSubmitOK st op && safeOps (step st op) ops

/-- The inductive invariant of the safe system: balances are non-negative,
each employee's Pending annual days fit within the balance, stored day
counts are at least one, and unregistered employees have neither ledger
entries nor requests. -/
def BalInvC (emps : List (String × Employee)) (reqs : List LeaveRequest)
    (bal : List (String × Int)) : Prop :=
  (∀ e, 0 ≤ balGL bal e) ∧
  (∀ e, pendSumL e reqs ≤ balGL bal e) ∧
  (∀ r ∈ reqs, (1 : Int) ≤ r.days) ∧
  (∀ e, lookupA emps e = none →
    lookupA bal e = none ∧ ∀ r ∈ reqs, r.employee_id ≠ e)

def BalInv (st : SysState) : Prop :=
  BalInvC st.employees st.leave_requests st.leave_balance

end LeaveSys

namespace Retrieval

/-! ### The knowledge base and the retrieval engine

`knowledge_base` is a dict from policy id to document; `search_policies`
iterates over it in insertion order.  The claims quantify over arbitrary
store contents, so the store is taken as the list of documents in
insertion order. -/

structure Policy where
  policy_id : String
  title : String
  content : String
  category : String
  created_at : String
  word_count : Nat
deriving DecidableEq, Repr

structure RankedResult where
  policy_id : String
  title : String
  category : String
  relevance_score : Nat
  excerpt : String
  full_content : String
deriving DecidableEq, Repr

/-- Python `sub in hay` on strings: `sub` occurs as a contiguous substring
(the empty string occurs in every string). -/
def containsSub (hay sub : List Char) : Bool :=
  (List.range (hay.length + 1)).any (fun i => sub.isPrefixOf (hay.drop i))

/-- Helper for `pyCount`, scanning left to right; `skip` is the number of
characters of the last match still to be passed over (a fresh match is only
looked for once the previous one has been fully consumed), so occurrences
are counted without overlap, as Python `str.count` counts them. -/
def pyCountAux (sub : List Char) : List Char → Nat → Nat
  | [], _ => 0
  | c :: t, 0 =>
    if sub.isPrefixOf (c :: t) then 1 + pyCountAux sub t (sub.length - 1)
    else pyCountAux sub t 0
  | _ :: t, skip + 1 => pyCountAux sub t skip

/-- Python `hay.count(sub)`: the number of non-overlapping occurrences
(`len(hay) + 1` for the empty needle). -/
def pyCount (hay sub : List Char) : Nat :=
  if sub.isEmpty then hay.length + 1 else pyCountAux sub hay 0

/-- Python `str.split()` with no argument: split on whitespace, discarding
empty pieces. -/
def pySplit (l : List Char) : List (List Char) :=
  (LeaveSys.splitOnP Char.isWhitespace l).filter (fun w => w ≠ [])

/-- The score loop body of `search_policies`: for each query word, +10 when
the word occurs in the lowercased title, plus the occurrence count in the
lowercased content when it occurs there. -/
def docScoreWords (query_words : List (List Char))
    (title_lower content_lower : List Char) : Nat :=
  query_words.foldl (fun score word =>
    let score := if containsSub title_lower word then score + 10 else score
    if containsSub content_lower word then score + pyCount content_lower word
    else score) 0

def docScore (query : String) (doc : Policy) : Nat :=
  docScoreWords (pySplit (LeaveSys.lowerL query.data))
    (LeaveSys.lowerL doc.title.data) (LeaveSys.lowerL doc.content.data)

/-- The category guard: `if category and doc["category"].lower() != category.lower():
continue` — an absent (or empty, hence falsy) category admits every
document. -/
def catPass (category : Option String) (doc : Policy) : Bool :=
  match category with
  | none => true
  | some c =>
    if c.data = [] then true
    else LeaveSys.lowerL doc.category.data = LeaveSys.lowerL c.data

/-- The result dict appended for a scored document: excerpt is the first
300 characters with an ellipsis when the content is longer. -/
def mkRanked (doc : Policy) (score : Nat) : RankedResult :=
  ⟨doc.policy_id, doc.title, doc.category, score,
    if doc.content.length > 300 then String.mk (doc.content.data.take 300) ++ "..."
    else doc.content,
    doc.content⟩

/-- The `results` list as built by the scan over the knowledge base, in
insertion order: category-filtered, scored, zero scores dropped. -/
def buildResults (kb : List Policy) (query : String) (category : Option String) :
    List RankedResult :=
  kb.filterMap (fun doc =>
    if catPass category doc then
      let score := docScore query doc
      if score > 0 then some (mkRanked doc score) else none
    else none)

/-- Stable insertion into a list sorted by descending score: the new
element (earlier in the original list) goes before every element of equal
or smaller score. -/
def insertByScore (x : RankedResult) : List RankedResult → List RankedResult
  | [] => [x]
  | y :: ys =>
    if x.relevance_score < y.relevance_score then y :: insertByScore x ys
    else x :: y :: ys

/-- `results.sort(key=lambda x: x["relevance_score"], reverse=True)`:
Python's sort is stable, and a stable descending sort by a key is computed
by stable insertion sort. -/
def sortByScoreDesc : List RankedResult → List RankedResult
  | [] => []
  | x :: xs => insertByScore x (sortByScoreDesc xs)

/-- `search_policies` (the Python default for `max_results` is 3). -/
def search_policies (kb : List Policy) (query : String) (category : Option String)
    (max_results : Nat) : List RankedResult :=
  (sortByScoreDesc (buildResults kb query category)).take max_results

structure QAResult where
  question : Option String
  answer : String
  sources : List (String × String)
  confidence : String
  context_used : Option String
deriving DecidableEq, Repr

/-- `ask_policy_question`: search with `max_results=3`; with no hits a
low-confidence answer with no sources (and no question/context keys),
otherwise an enumerated answer, sources as (title, policy_id) pairs, and
confidence "high" when at least two documents matched, else "medium". -/
def ask_policy_question (kb : List Policy) (question : String)
    (category : Option String) : QAResult :=
  let relevant_docs := search_policies kb question category 3
  if relevant_docs.isEmpty then
    ⟨none, "I couldn\x27t find any relevant policy documents for your question.",
      [], "low", none⟩
  else
    let context := String.intercalate "\n\n"
      (relevant_docs.map (fun doc => "[" ++ doc.title ++ "]\n" ++ doc.full_content))
    let answer := (List.enumFrom 1 relevant_docs).foldl
      (fun acc p =>
        acc ++ toString p.1 ++ ". From \x27" ++ p.2.title ++ "\x27 (" ++
          p.2.category ++ "):\n" ++ "   " ++ p.2.excerpt ++ "\n\n")
      "Based on the available policies, here\x27s what I found:\n\n"
    ⟨some question, answer,
      relevant_docs.map (fun doc => (doc.title, doc.policy_id)),
      if relevant_docs.length ≥ 2 then "high" else "medium",
      some context⟩

/-- The per-word score contribution as §4.2 of the specification words it:
ten points when the word occurs as a substring of the lowercased title,
plus the count of its occurrences as a substring of the lowercased body. -/
def specWordContrib (title_lower content_lower : List Char) (word : List Char) : Nat :=
  (if containsSub title_lower word then 10 else 0) + pyCount content_lower word

/-- The scoring rule as the spec words it: the sum, over the
whitespace-split lowercase query words, of the per-word contribution. -/
def specScore (query : String) (doc : Policy) : Nat :=
  ((pySplit (LeaveSys.lowerL query.data)).map
    (specWordContrib (LeaveSys.lowerL doc.title.data)
      (LeaveSys.lowerL doc.content.data))).sum

/-! ### Facts about the scoring loop -/

/-- The amount the scan of `search_policies` adds to the score for one
query word. -/
def loopContrib (title_lower content_lower : List Char) (word : List Char) : Nat :=
  (if containsSub title_lower word then 10 else 0) +
  (if containsSub content_lower word then pyCount content_lower word else 0)

theorem docScoreWords_foldl (tl cl : List Char) (ws : List (List Char)) :
    ∀ a : Nat,
    ws.foldl (fun score word =>
      let score := if containsSub tl word then score + 10 else score
      if containsSub cl word then score + pyCount cl word else score) a
      = a + (ws.map (loopContrib tl cl)).sum := by
  induction ws with
  | nil => intro a; simp
  | cons w ws ih =>
    intro a
    have hb : (let s := if containsSub tl w then a + 10 else a
               if containsSub cl w then s + pyCount cl w else s)
              = a + loopContrib tl cl w := by
      by_cases h1 : containsSub tl w <;> by_cases h2 : containsSub cl w
      all_goals simp [h1, h2, loopContrib]
      all_goals omega
    rw [List.foldl_cons, hb, ih, List.map_cons, List.sum_cons]
    omega

theorem docScoreWords_eq_sum (ws : List (List Char)) (tl cl : List Char) :
    docScoreWords ws tl cl = (ws.map (loopContrib tl cl)).sum := by
  unfold docScoreWords
  simpa using docScoreWords_foldl tl cl ws 0

theorem containsSub_of_isPrefixOf {hay sub : List Char} (h : sub.isPrefixOf hay) :
    containsSub hay sub = true := by
  unfold containsSub
  refine List.any_eq_true.mpr ⟨0, ?_, by simpa using h⟩
  simp

theorem containsSub_cons {t sub : List Char} (c : Char)
    (h : containsSub t sub = true) : containsSub (c :: t) sub = true := by
  unfold containsSub at h ⊢
  obtain ⟨i, hi, hp⟩ := List.any_eq_true.mp h
  refine List.any_eq_true.mpr ⟨i + 1, ?_, ?_⟩
  · simp only [List.mem_range, List.length_cons] at hi ⊢
    omega
  · simpa using hp

theorem containsSub_nil (hay : List Char) : containsSub hay [] = true :=
  containsSub_of_isPrefixOf (by simp [List.isPrefixOf])

theorem pyCountAux_of_not_contains {hay sub : List Char}
    (h : containsSub hay sub = false) : pyCountAux sub hay 0 = 0 := by
  induction hay with
  | nil => rfl
  | cons c t ih =>
    have h1 : sub.isPrefixOf (c :: t) = false := by
      cases hp : sub.isPrefixOf (c :: t)
      · rfl
      · rw [containsSub_of_isPrefixOf hp] at h; cases h
    have h2 : containsSub t sub = false := by
      cases hc : containsSub t sub
      · rfl
      · rw [containsSub_cons c hc] at h; cases h
    simp [pyCountAux, h1, ih h2]

theorem loopContrib_eq_specWordContrib (tl cl w : List Char) :
    loopContrib tl cl w = specWordContrib tl cl w := by
  unfold loopContrib specWordContrib
  by_cases h : containsSub cl w
  · simp [h]
  · have hw : w ≠ [] := by
      intro he
      rw [he, containsSub_nil] at h
      exact h rfl
    have h0 : pyCount cl w = 0 := by
      unfold pyCount
      rw [if_neg (by simpa using hw)]
      exact pyCountAux_of_not_contains (by simpa using h)
    simp [h, h0]

/-- The score `search_policies` computes is the one the spec describes. -/
theorem docScore_eq_specScore (query : String) (doc : Policy) :
    docScore query doc = specScore query doc := by
  unfold docScore specScore
  rw [docScoreWords_eq_sum]
  have hf : ∀ tl cl, loopContrib tl cl = specWordContrib tl cl :=
    fun tl cl => funext (loopContrib_eq_specWordContrib tl cl)
  rw [hf]

/-! ### Facts about ranking -/

/-- Descending-score order on result records. -/
def scoreGE (a b : RankedResult) : Prop :=
  b.relevance_score ≤ a.relevance_score

theorem mem_insertByScore {x y : RankedResult} {l : List RankedResult} :
    y ∈ insertByScore x l ↔ y = x ∨ y ∈ l := by
  induction l with
  | nil => simp [insertByScore]
  | cons z zs ih =>
    unfold insertByScore
    by_cases h : x.relevance_score < z.relevance_score
    · rw [if_pos h]
      simp only [List.mem_cons, ih]
      tauto
    · rw [if_neg h]
      simp only [List.mem_cons]

theorem mem_sortByScoreDesc {y : RankedResult} {l : List RankedResult} :
    y ∈ sortByScoreDesc l ↔ y ∈ l := by
  induction l with
  | nil => simp [sortByScoreDesc]
  | cons x xs ih =>
    unfold sortByScoreDesc
    rw [mem_insertByScore, ih, List.mem_cons]

theorem pairwise_insertByScore {x : RankedResult} {l : List RankedResult}
    (h : l.Pairwise scoreGE) : (insertByScore x l).Pairwise scoreGE := by
  induction l with
  | nil => simp [insertByScore]
  | cons y ys ih =>
    rw [List.pairwise_cons] at h
    obtain ⟨hy, hys⟩ := h
    unfold insertByScore
    by_cases hxy : x.relevance_score < y.relevance_score
    · rw [if_pos hxy, List.pairwise_cons]
      refine ⟨?_, ih hys⟩
      intro z hz
      rcases mem_insertByScore.mp hz with rfl | hz'
      · exact Nat.le_of_lt hxy
      · exact hy z hz'
    · rw [if_neg hxy, List.pairwise_cons]
      refine ⟨?_, List.pairwise_cons.mpr ⟨hy, hys⟩⟩
      intro z hz
      rcases List.mem_cons.mp hz with rfl | hz'
      · exact Nat.le_of_not_lt hxy
      · exact Nat.le_trans (hy z hz') (Nat.le_of_not_lt hxy)

theorem pairwise_sortByScoreDesc (l : List RankedResult) :
    (sortByScoreDesc l).Pairwise scoreGE := by
  induction l with
  | nil => simp [sortByScoreDesc]
  | cons x xs ih => exact pairwise_insertByScore ih

theorem filter_insertByScore_pos {x : RankedResult} {l : List RankedResult} {s : Nat}
    (hx : x.relevance_score = s) :
    (insertByScore x l).filter (fun r => r.relevance_score == s) =
      x :: l.filter (fun r => r.relevance_score == s) := by
  induction l with
  | nil => simp [insertByScore, hx]
  | cons y ys ih =>
    unfold insertByScore
    by_cases hxy : x.relevance_score < y.relevance_score
    · rw [if_pos hxy]
      have hy : (y.relevance_score == s) = false := by
        subst hx
        simp only [beq_eq_false_iff_ne, ne_eq]
        omega
      simp [List.filter_cons, hy, ih]
    · rw [if_neg hxy]
      simp [List.filter_cons, hx]

theorem filter_insertByScore_neg {x : RankedResult} {l : List RankedResult} {s : Nat}
    (hx : x.relevance_score ≠ s) :
    (insertByScore x l).filter (fun r => r.relevance_score == s) =
      l.filter (fun r => r.relevance_score == s) := by
  have hxb : (x.relevance_score == s) = false := beq_eq_false_iff_ne.mpr hx
  induction l with
  | nil => simp [insertByScore, hxb]
  | cons y ys ih =>
    unfold insertByScore
    by_cases hxy : x.relevance_score < y.relevance_score
    · rw [if_pos hxy]
      simp [List.filter_cons, ih]
    · rw [if_neg hxy]
      simp [List.filter_cons, hxb]

/-- Stability: sorting never reorders results of equal score. -/
theorem filter_sortByScoreDesc (l : List RankedResult) (s : Nat) :
    (sortByScoreDesc l).filter (fun r => r.relevance_score == s) =
      l.filter (fun r => r.relevance_score == s) := by
  induction l with
  | nil => simp [sortByScoreDesc]
  | cons x xs ih =>
    unfold sortByScoreDesc
    by_cases hx : x.relevance_score = s
    · rw [filter_insertByScore_pos hx, ih]
      simp [List.filter_cons, hx]
    · rw [filter_insertByScore_neg hx, ih]
      simp [List.filter_cons, beq_eq_false_iff_ne.mpr hx]

end Retrieval

namespace LeaveSys

theorem balGL_setA_self (bal : List (String × Int)) (e : String) (v : Int) :
    balGL (setA bal e v) e = v := by
  simp [balGL, lookupA_setA_self]

theorem balGL_setA_other (bal : List (String × Int)) (e e' : String) (v : Int)
    (h : e' ≠ e) : balGL (setA bal e v) e' = balGL bal e' := by
  simp [balGL, lookupA_setA_other _ _ _ _ h]

/-- What the approval scan does to the log and the ledger: either it finds
nothing to change (id absent, or the found request not Pending), or the
first request with the id is Pending and is replaced in place by its
approved copy, the ledger losing its day count when its type is annual. -/
theorem approveLoop_spec (rid ap t : String) (bal : List (String × Int)) :
    ∀ reqs : List LeaveRequest,
    ((approveLoop rid ap t bal reqs).2.1 = reqs ∧
     (approveLoop rid ap t bal reqs).2.2 = bal) ∨
    ∃ l1 r l2, reqs = l1 ++ r :: l2 ∧ r.status = "Pending" ∧
      (approveLoop rid ap t bal reqs).2.1 =
        l1 ++ { r with status := "Approved",
                       approved_by := some ap,
                       approved_date := some t } :: l2 ∧
      (approveLoop rid ap t bal reqs).2.2 =
        (if lowerL r.leave_type.data = "annual".data then
          setA bal r.employee_id ((lookupA bal r.employee_id).getD 0 - r.days)
        else bal) := by
  intro reqs
  induction reqs with
  | nil => exact Or.inl ⟨rfl, rfl⟩
  | cons q rest ih =>
    by_cases hq : q.request_id = rid
    · by_cases hp : q.status = "Pending"
      · refine Or.inr ⟨[], q, rest, rfl, hp, ?_, ?_⟩ <;>
        · unfold approveLoop
          rw [if_pos hq, if_neg (not_not_intro hp)]
          try simp
      · refine Or.inl ⟨?_, ?_⟩ <;>
        · unfold approveLoop
          rw [if_pos hq, if_pos hp]
    · rcases hres : approveLoop rid ap t bal rest with ⟨res, rest', bal'⟩
      rw [hres] at ih
      unfold approveLoop
      rw [if_neg hq, hres]
      rcases ih with ⟨h1, h2⟩ | ⟨l1, r, l2, hsplit, hstat, h1, h2⟩
      · exact Or.inl ⟨by simp_all, by simp_all⟩
      · exact Or.inr ⟨q :: l1, r, l2, by rw [hsplit]; rfl, hstat,
          by simp_all, by simp_all⟩

/-- Same shape for the rejection scan; the ledger is never touched. -/
theorem rejectLoop_spec (rid rj ap t : String) :
    ∀ reqs : List LeaveRequest,
    (rejectLoop rid rj ap t reqs).2 = reqs ∨
    ∃ l1 r l2, reqs = l1 ++ r :: l2 ∧ r.status = "Pending" ∧
      (rejectLoop rid rj ap t reqs).2 =
        l1 ++ { r with status := "Rejected",
                       rejection_reason := some rj,
                       rejected_by := some ap,
                       rejected_date := some t } :: l2 := by
  intro reqs
  induction reqs with
  | nil => exact Or.inl rfl
  | cons q rest ih =>
    by_cases hq : q.request_id = rid
    · by_cases hp : q.status = "Pending"
      · refine Or.inr ⟨[], q, rest, rfl, hp, ?_⟩
        unfold rejectLoop
        rw [if_pos hq, if_neg (not_not_intro hp)]
        simp
      · refine Or.inl ?_
        unfold rejectLoop
        rw [if_pos hq, if_pos hp]
    · rcases hres : rejectLoop rid rj ap t rest with ⟨res, rest'⟩
      rw [hres] at ih
      unfold rejectLoop
      rw [if_neg hq, hres]
      rcases ih with h1 | ⟨l1, r, l2, hsplit, hstat, h1⟩
      · exact Or.inl (by simp_all)
      · exact Or.inr ⟨q :: l1, r, l2, by rw [hsplit]; rfl, hstat, by simp_all⟩

theorem BalInv_register (st : SysState) (inv : BalInv st) (e n em d t : String) :
    BalInv (register_employee st e n em d t).2 := by
  obtain ⟨inv1, inv2, inv3, inv4⟩ := inv
  unfold register_employee
  by_cases h : (lookupA st.employees e).isSome
  · rw [if_pos h]
    exact ⟨inv1, inv2, inv3, inv4⟩
  · rw [if_neg h]
    have hnone : lookupA st.employees e = none := Option.not_isSome_iff_eq_none.mp h
    obtain ⟨hbal, hreq⟩ := inv4 e hnone
    unfold BalInv BalInvC
    dsimp only
    refine ⟨?_, ?_, inv3, ?_⟩
    · intro e'
      by_cases he' : e' = e
      · subst he'
        rw [balGL_setA_self]
        norm_num
      · rw [balGL_setA_other _ _ _ _ he']
        exact inv1 e'
    · intro e'
      by_cases he' : e' = e
      · subst he'
        rw [balGL_setA_self]
        have hfil : st.leave_requests.filter (isPendAnn e') = [] := by
          apply List.filter_eq_nil_iff.mpr
          intro r hr hp
          exact hreq r hr (isPendAnn_iff.mp hp).1
        rw [pendSumL_singleton_filter_nil hfil]
        norm_num
      · rw [balGL_setA_other _ _ _ _ he']
        exact inv2 e'
    · intro e' he'
      have hne : e' ≠ e := by
        intro hcontra
        subst hcontra
        rw [lookupA_setA_self] at he'
        cases he'
      rw [lookupA_setA_other _ _ _ _ hne] at he'
      obtain ⟨hb, hr⟩ := inv4 e' he'
      exact ⟨by rw [lookupA_setA_other _ _ _ _ hne]; exact hb, hr⟩

theorem BalInv_request (st : SysState) (inv : BalInv st) (e sd ed lt rs t : String)
    (hsafe : annSubmitOK st (.request e sd ed lt rs t) = true) :
    BalInv (request_leave st e sd ed lt rs t).2 := by
  obtain ⟨inv1, inv2, inv3, inv4⟩ := inv
  unfold request_leave
  cases hemp : lookupA st.employees e with
  | none => exact ⟨inv1, inv2, inv3, inv4⟩
  | some emp =>
    cases hd1 : parseDate sd with
    | none => exact ⟨inv1, inv2, inv3, inv4⟩
    | some d1 =>
      cases hd2 : parseDate ed with
      | none => exact ⟨inv1, inv2, inv3, inv4⟩
      | some d2 =>
        dsimp only
        set days : Int := (toOrdinal d2 : Int) - (toOrdinal d1 : Int) + 1 with hdays
        by_cases hle : days ≤ 0
        · rw [if_pos hle]
          exact ⟨inv1, inv2, inv3, inv4⟩
        · rw [if_neg hle]
          by_cases hann : lowerL lt.data = "annual".data
          · rw [if_pos hann]
            by_cases hover : days > balG st e
            · rw [if_pos hover]
              exact ⟨inv1, inv2, inv3, inv4⟩
            · rw [if_neg hover]
              have hfil : st.leave_requests.filter (isPendAnn e) = [] := by
                have h2 : (if lowerL lt.data = "annual".data then
                    (st.leave_requests.filter (isPendAnn e)).isEmpty
                  else true) = true := hsafe
                rw [if_pos hann] at h2
                exact List.isEmpty_iff.mp h2
              unfold BalInv BalInvC
              dsimp only
              refine ⟨inv1, ?_, ?_, ?_⟩
              · intro e'
                rw [pendSumL_append, pendSumL_cons, pendSumL_nil]
                by_cases he' : e' = e
                · subst he'
                  rw [pendSumL_singleton_filter_nil hfil]
                  have hpend : isPendAnn e' ⟨reqIdOf (st.leave_requests.length + 1),
                      e', emp.name, sd, ed, days, lt, rs, "Pending", t,
                      none, none, none, none, none⟩ = true := by
                    rw [isPendAnn_iff]
                    exact ⟨rfl, rfl, hann⟩
                  rw [if_pos hpend]
                  have hb : balG st e' = balGL st.leave_balance e' := rfl
                  dsimp only
                  omega
                · have hpend : ¬ (isPendAnn e' ⟨reqIdOf (st.leave_requests.length + 1),
                      e, emp.name, sd, ed, days, lt, rs, "Pending", t,
                      none, none, none, none, none⟩ = true) := by
                    rw [isPendAnn_iff]
                    intro hcontra
                    exact he' hcontra.1.symm
                  rw [if_neg hpend]
                  have := inv2 e'
                  omega
              · intro r hr
                rcases List.mem_append.mp hr with hm | hm
                · exact inv3 r hm
                · rcases List.mem_singleton.mp hm with rfl
                  dsimp only
                  omega
              · intro e' he'
                obtain ⟨hb, hreqs⟩ := inv4 e' he'
                refine ⟨hb, ?_⟩
                intro r hr
                rcases List.mem_append.mp hr with hm | hm
                · exact hreqs r hm
                · rcases List.mem_singleton.mp hm with rfl
                  dsimp only
                  intro hcontra
                  rw [hcontra] at hemp
                  rw [he'] at hemp
                  cases hemp
          · rw [if_neg hann]
            unfold BalInv BalInvC
            dsimp only
            refine ⟨inv1, ?_, ?_, ?_⟩
            · intro e'
              rw [pendSumL_append, pendSumL_cons, pendSumL_nil]
              have hpend : ¬ (isPendAnn e' ⟨reqIdOf (st.leave_requests.length + 1),
                  e, emp.name, sd, ed, days, lt, rs, "Pending", t,
                  none, none, none, none, none⟩ = true) := by
                rw [isPendAnn_iff]
                intro hcontra
                exact hann hcontra.2.2
              rw [if_neg hpend]
              have := inv2 e'
              omega
            · intro r hr
              rcases List.mem_append.mp hr with hm | hm
              · exact inv3 r hm
              · rcases List.mem_singleton.mp hm with rfl
                dsimp only
                omega
            · intro e' he'
              obtain ⟨hb, hreqs⟩ := inv4 e' he'
              refine ⟨hb, ?_⟩
              intro r hr
              rcases List.mem_append.mp hr with hm | hm
              · exact hreqs r hm
              · rcases List.mem_singleton.mp hm with rfl
                dsimp only
                intro hcontra
                rw [hcontra] at hemp
                rw [he'] at hemp
                cases hemp

/-- Replacing a request in the log by a copy that is no longer Pending
(same employee and day count, any other fields) preserves the invariant
when the ledger is untouched. -/
theorem BalInvC_replace (emps : List (String × Employee)) (bal : List (String × Int))
    (l1 l2 : List LeaveRequest) (r r' : LeaveRequest)
    (hdays : r'.days = r.days) (hemp : r'.employee_id = r.employee_id)
    (hstat : r'.status ≠ "Pending")
    (inv : BalInvC emps (l1 ++ r :: l2) bal) :
    BalInvC emps (l1 ++ r' :: l2) bal := by
  obtain ⟨inv1, inv2, inv3, inv4⟩ := inv
  refine ⟨inv1, ?_, ?_, ?_⟩
  · intro e'
    have h2 := inv2 e'
    rw [pendSumL_append, pendSumL_cons] at h2 ⊢
    have hr' : ¬ (isPendAnn e' r' = true) := by
      rw [isPendAnn_iff]
      rintro ⟨_, hs, _⟩
      exact hstat hs
    rw [if_neg hr']
    have hcr : (0 : Int) ≤ (if isPendAnn e' r then r.days else 0) := by
      split
      · have := inv3 r (List.mem_append_right _ (List.mem_cons_self _ _))
        omega
      · exact le_refl 0
    omega
  · intro q hq
    rcases List.mem_append.mp hq with hm | hm
    · exact inv3 q (List.mem_append_left _ hm)
    · rcases List.mem_cons.mp hm with rfl | hm'
      · rw [hdays]
        exact inv3 r (List.mem_append_right _ (List.mem_cons_self _ _))
      · exact inv3 q (List.mem_append_right _ (List.mem_cons_of_mem _ hm'))
  · intro e' he'
    obtain ⟨hb, hr⟩ := inv4 e' he'
    refine ⟨hb, ?_⟩
    intro q hq
    rcases List.mem_append.mp hq with hm | hm
    · exact hr q (List.mem_append_left _ hm)
    · rcases List.mem_cons.mp hm with rfl | hm'
      · rw [hemp]
        exact hr r (List.mem_append_right _ (List.mem_cons_self _ _))
      · exact hr q (List.mem_append_right _ (List.mem_cons_of_mem _ hm'))

theorem BalInv_approve (st : SysState) (inv : BalInv st) (rid ap t : String) :
    BalInv (approve_leave st rid ap t).2 := by
  unfold approve_leave
  rcases hres : approveLoop rid ap t st.leave_balance st.leave_requests
    with ⟨res, reqs', bal'⟩
  have hspec := approveLoop_spec rid ap t st.leave_balance st.leave_requests
  rw [hres] at hspec
  dsimp only at hspec ⊢
  rcases hspec with ⟨h1, h2⟩ | ⟨l1, r, l2, hsplit, hstat, h1, h2⟩
  · subst h1
    subst h2
    exact inv
  · subst h1
    subst h2
    have invC : BalInvC st.employees (l1 ++ r :: l2) st.leave_balance := by
      rw [← hsplit]
      exact inv
    obtain ⟨inv1, inv2, inv3, inv4⟩ := invC
    by_cases hann : lowerL r.leave_type.data = "annual".data
    · rw [if_pos hann]
      have hrdays : (1 : Int) ≤ r.days :=
        inv3 r (List.mem_append_right _ (List.mem_cons_self _ _))
      have hl1 : ∀ q ∈ l1, (1 : Int) ≤ q.days :=
        fun q hq => inv3 q (List.mem_append_left _ hq)
      have hl2 : ∀ q ∈ l2, (1 : Int) ≤ q.days :=
        fun q hq => inv3 q (List.mem_append_right _ (List.mem_cons_of_mem _ hq))
      have hpendr : isPendAnn r.employee_id r = true :=
        isPendAnn_iff.mpr ⟨rfl, hstat, hann⟩
      have hsum := inv2 r.employee_id
      rw [pendSumL_append, pendSumL_cons, if_pos hpendr] at hsum
      have hn1 : 0 ≤ pendSumL r.employee_id l1 := pendSumL_nonneg _ _ hl1
      have hn2 : 0 ≤ pendSumL r.employee_id l2 := pendSumL_nonneg _ _ hl2
      have hgetd : ((lookupA st.leave_balance r.employee_id).getD 0 : Int) =
          balGL st.leave_balance r.employee_id := rfl
      refine ⟨?_, ?_, ?_, ?_⟩
      · intro e'
        by_cases he' : e' = r.employee_id
        · subst he'
          rw [hgetd, balGL_setA_self]
          omega
        · rw [hgetd, balGL_setA_other _ _ _ _ he']
          exact inv1 e'
      · intro e'
        have hnp : ¬ (isPendAnn e'
            { r with status := "Approved",
                     approved_by := some ap,
                     approved_date := some t } = true) := by
          rw [isPendAnn_iff]
          rintro ⟨_, hs, _⟩
          exact absurd hs (show ("Approved" : String) ≠ "Pending" by decide)
        rw [pendSumL_append, pendSumL_cons, if_neg hnp]
        by_cases he' : e' = r.employee_id
        · subst he'
          rw [hgetd, balGL_setA_self]
          omega
        · rw [hgetd, balGL_setA_other _ _ _ _ he']
          have h2 := inv2 e'
          rw [pendSumL_append, pendSumL_cons] at h2
          have hrf : ¬ (isPendAnn e' r = true) := by
            rw [isPendAnn_iff]
            rintro ⟨hc, _, _⟩
            exact he' hc.symm
          rw [if_neg hrf] at h2
          omega
      · intro q hq
        rcases List.mem_append.mp hq with hm | hm
        · exact hl1 q hm
        · rcases List.mem_cons.mp hm with rfl | hm'
          · exact hrdays
          · exact hl2 q hm'
      · intro e' he'
        obtain ⟨hb, hr⟩ := inv4 e' he'
        have hne : e' ≠ r.employee_id := by
          intro hcontra
          exact hr r (List.mem_append_right _ (List.mem_cons_self _ _)) hcontra.symm
        refine ⟨by rw [lookupA_setA_other _ _ _ _ hne]; exact hb, ?_⟩
        intro q hq
        rcases List.mem_append.mp hq with hm | hm
        · exact hr q (List.mem_append_left _ hm)
        · rcases List.mem_cons.mp hm with rfl | hm'
          · exact hr r (List.mem_append_right _ (List.mem_cons_self _ _))
          · exact hr q (List.mem_append_right _ (List.mem_cons_of_mem _ hm'))
    · rw [if_neg hann]
      exact BalInvC_replace st.employees st.leave_balance l1 l2 r _ rfl rfl
        (show ("Approved" : String) ≠ "Pending" by decide) ⟨inv1, inv2, inv3, inv4⟩

theorem BalInv_reject (st : SysState) (inv : BalInv st) (rid rj ap t : String) :
    BalInv (reject_leave st rid rj ap t).2 := by
  unfold reject_leave
  rcases hres : rejectLoop rid rj ap t st.leave_requests with ⟨res, reqs'⟩
  have hspec := rejectLoop_spec rid rj ap t st.leave_requests
  rw [hres] at hspec
  dsimp only at hspec ⊢
  rcases hspec with h1 | ⟨l1, r, l2, hsplit, hstat, h1⟩
  · subst h1
    exact inv
  · subst h1
    have invC : BalInvC st.employees (l1 ++ r :: l2) st.leave_balance := by
      rw [← hsplit]
      exact inv
    exact BalInvC_replace st.employees st.leave_balance l1 l2 r _ rfl rfl
      (show ("Rejected" : String) ≠ "Pending" by decide) invC

theorem BalInv_step (st : SysState) (inv : BalInv st) (op : Op)
    (hok : annSubmitOK st op = true) : BalInv (step st op) := by
  cases op with
  | register e n em d t => exact BalInv_register st inv e n em d t
  | request e sd ed lt rs t => exact BalInv_request st inv e sd ed lt rs t hok
  | approve rid ap t => exact BalInv_approve st inv rid ap t
  | reject rid rj ap t => exact BalInv_reject st inv rid rj ap t

theorem BalInv_safeOps : ∀ (ops : List Op) (st : SysState), BalInv st →
    safeOps st ops = true → BalInv (ops.foldl step st) := by
  intro ops
  induction ops with
  | nil => intro st inv _; exact inv
  | cons op ops ih =>
    intro st inv hsafe
    have h : (annSubmitOK st op && safeOps (step st op) ops) = true := hsafe
    rw [Bool.and_eq_true] at h
    exact ih (step st op) (BalInv_step st inv op h.1) h.2

/-! ### Request identifiers

`request_leave` assigns `f"REQ{len(leave_requests)+1:04d}"`.  To show the
identifiers are distinct we invert the decimal rendering: `decDigits`
recovers `n` from `Nat.repr n`, zero padding included. -/

theorem digitChar_sub (r : Nat) (h : r < 10) : (Nat.digitChar r).toNat - 48 = r := by
  interval_cases r <;> rfl

theorem decDigits_append_singleton (xs : List Char) (d : Char) :
    decDigits (xs ++ [d]) = 10 * decDigits xs + (d.toNat - 48) := by
  simp [decDigits, List.foldl_append]

theorem toDigitsCore_acc (fuel : Nat) : ∀ (n : Nat) (acc : List Char),
    Nat.toDigitsCore 10 fuel n acc = Nat.toDigitsCore 10 fuel n [] ++ acc := by
  induction fuel with
  | zero => intro n acc; simp [Nat.toDigitsCore]
  | succ fuel ih =>
    intro n acc
    unfold Nat.toDigitsCore
    by_cases h : n / 10 = 0
    · simp [h]
    · rw [if_neg h, if_neg h, ih (n / 10) (Nat.digitChar (n % 10) :: acc),
        ih (n / 10) [Nat.digitChar (n % 10)], List.append_assoc]
      rfl

theorem decDigits_toDigitsCore : ∀ (fuel n : Nat), n < fuel →
    decDigits (Nat.toDigitsCore 10 fuel n []) = n := by
  intro fuel
  induction fuel with
  | zero => intro n h; omega
  | succ fuel ih =>
    intro n h
    unfold Nat.toDigitsCore
    by_cases h0 : n / 10 = 0
    · rw [if_pos h0]
      have hd : decDigits [Nat.digitChar (n % 10)] = (Nat.digitChar (n % 10)).toNat - 48 := by
        simp [decDigits]
      rw [hd, digitChar_sub (n % 10) (Nat.mod_lt _ (by norm_num))]
      omega
    · rw [if_neg h0, toDigitsCore_acc, decDigits_append_singleton,
        ih (n / 10) (by omega), digitChar_sub (n % 10) (Nat.mod_lt _ (by norm_num))]
      omega

theorem decDigits_repr (n : Nat) : decDigits (Nat.repr n).data = n := by
  have h : (Nat.repr n).data = Nat.toDigitsCore 10 (n + 1) n [] := rfl
  rw [h]
  exact decDigits_toDigitsCore (n + 1) n (Nat.lt_succ_self n)

theorem foldl_replicate_zero (k : Nat) :
    List.foldl (fun a c => 10 * a + (c.toNat - 48)) 0 (List.replicate k '0') = 0 := by
  induction k with
  | zero => rfl
  | succ k ih => simpa [List.replicate_succ] using ih

theorem decDigits_replicate_zero (k : Nat) (l : List Char) :
    decDigits (List.replicate k '0' ++ l) = decDigits l := by
  unfold decDigits
  rw [List.foldl_append, foldl_replicate_zero]

theorem decDigits_reqIdOf_data (n : Nat) :
    decDigits ((reqIdOf n).data.drop 3) = n := by
  have hdata : (reqIdOf n).data =
      'R' :: 'E' :: 'Q' :: (List.replicate (4 - (Nat.repr n).length) '0' ++ (Nat.repr n).data) := by
    simp [reqIdOf, String.data_append]
  rw [hdata]
  simp only [List.drop_succ_cons, List.drop_zero]
  rw [decDigits_replicate_zero, decDigits_repr]

theorem reqIdOf_inj : Function.Injective reqIdOf := by
  intro a b h
  have ha := decDigits_reqIdOf_data a
  have hb := decDigits_reqIdOf_data b
  rw [h] at ha
  exact ha.symm.trans hb

/-! ### The canonical identifier sequence -/

def idsOf (reqs : List LeaveRequest) : List String :=
  reqs.map (fun r => r.request_id)

/-- The log carries, in order, exactly the identifiers REQ0001 … REQn. -/
def canonicalIds (reqs : List LeaveRequest) : Prop :=
  idsOf reqs = (List.range reqs.length).map (fun k => reqIdOf (k + 1))

theorem idsOf_approveLoop (rid ap t : String) (bal : List (String × Int)) :
    ∀ reqs : List LeaveRequest,
    idsOf (approveLoop rid ap t bal reqs).2.1 = idsOf reqs := by
  intro reqs
  induction reqs with
  | nil => rfl
  | cons q rest ih =>
    by_cases hq : q.request_id = rid
    · by_cases hp : q.status = "Pending"
      · unfold approveLoop
        rw [if_pos hq, if_neg (not_not_intro hp)]
        simp [idsOf]
      · unfold approveLoop
        rw [if_pos hq, if_pos hp]
    · rcases hres : approveLoop rid ap t bal rest with ⟨res, rest', bal'⟩
      rw [hres] at ih
      unfold approveLoop
      rw [if_neg hq, hres]
      simpa [idsOf] using ih

theorem idsOf_rejectLoop (rid rj ap t : String) :
    ∀ reqs : List LeaveRequest,
    idsOf (rejectLoop rid rj ap t reqs).2 = idsOf reqs := by
  intro reqs
  induction reqs with
  | nil => rfl
  | cons q rest ih =>
    by_cases hq : q.request_id = rid
    · by_cases hp : q.status = "Pending"
      · unfold rejectLoop
        rw [if_pos hq, if_neg (not_not_intro hp)]
        simp [idsOf]
      · unfold rejectLoop
        rw [if_pos hq, if_pos hp]
    · rcases hres : rejectLoop rid rj ap t rest with ⟨res, rest'⟩
      rw [hres] at ih
      unfold rejectLoop
      rw [if_neg hq, hres]
      simpa [idsOf] using ih

/-- Each operation either leaves the identifier sequence alone or appends
the next sequential identifier: approvals and rejections mutate requests
in place without renaming or reordering, and a successful submission
appends `REQ(n+1)`. -/
theorem idsOf_step (st : SysState) (op : Op) :
    idsOf (step st op).leave_requests = idsOf st.leave_requests ∨
    idsOf (step st op).leave_requests =
      idsOf st.leave_requests ++ [reqIdOf (st.leave_requests.length + 1)] := by
  cases op with
  | register e n em d t =>
    left
    simp only [step]
    unfold register_employee
    by_cases h : (lookupA st.employees e).isSome
    · rw [if_pos h]
    · rw [if_neg h]
  | request e sd ed lt rs t =>
    simp only [step]
    unfold request_leave
    cases hemp : lookupA st.employees e with
    | none => exact Or.inl rfl
    | some emp =>
      cases parseDate sd with
      | none => exact Or.inl rfl
      | some d1 =>
        cases parseDate ed with
        | none => exact Or.inl rfl
        | some d2 =>
          dsimp only
          split
          · exact Or.inl rfl
          · split
            · exact Or.inl rfl
            · right
              simp [idsOf]
  | approve rid ap t =>
    left
    simp only [step]
    unfold approve_leave
    rcases hres : approveLoop rid ap t st.leave_balance st.leave_requests
      with ⟨res, reqs', bal'⟩
    have h := idsOf_approveLoop rid ap t st.leave_balance st.leave_requests
    rw [hres] at h
    simpa using h
  | reject rid rj ap t =>
    left
    simp only [step]
    unfold reject_leave
    rcases hres : rejectLoop rid rj ap t st.leave_requests with ⟨res, reqs'⟩
    have h := idsOf_rejectLoop rid rj ap t st.leave_requests
    rw [hres] at h
    simpa using h

theorem length_eq_of_idsOf_eq {reqs reqs' : List LeaveRequest}
    (h : idsOf reqs' = idsOf reqs) : reqs'.length = reqs.length := by
  have := congrArg List.length h
  simpa [idsOf] using this

theorem canonicalIds_step (st : SysState) (op : Op)
    (h : canonicalIds st.leave_requests) :
    canonicalIds (step st op).leave_requests := by
  rcases idsOf_step st op with he | he
  · have hlen := length_eq_of_idsOf_eq he
    unfold canonicalIds at h ⊢
    rw [he, hlen]
    exact h
  · have hlen : (step st op).leave_requests.length = st.leave_requests.length + 1 := by
      have := congrArg List.length he
      simpa [idsOf] using this
    unfold canonicalIds at h ⊢
    rw [he, hlen, List.range_succ, List.map_append, h]
    rfl

theorem canonicalIds_run (ops : List Op) : canonicalIds (run ops).leave_requests := by
  have hgen : ∀ (l : List Op) (st : SysState), canonicalIds st.leave_requests →
      canonicalIds (l.foldl step st).leave_requests := by
    intro l
    induction l with
    | nil => intro st h; exact h
    | cons op l ih => intro st h; exact ih (step st op) (canonicalIds_step st op h)
  exact hgen ops emptySys rfl

theorem canonicalIds_nodup {reqs : List LeaveRequest}
    (h : canonicalIds reqs) : (idsOf reqs).Nodup := by
  rw [h]
  exact List.Nodup.map
    (fun a b hab => by simpa using reqIdOf_inj hab) (List.nodup_range _)

theorem BalInv_empty : BalInv emptySys := by
  refine ⟨?_, ?_, ?_, ?_⟩
  · intro e
    exact le_refl 0
  · intro e
    exact le_refl 0
  · intro r hr
    cases hr
  · intro e _
    exact ⟨rfl, fun r hr => by cases hr⟩

end LeaveSys

/-! ## Claim theorems -/

open LeaveSys Retrieval

/-- C1: starting from an empty system, registering `EMP001` gives a ledger
balance of 20; an Annual request for 2024-12-23..2024-12-27 succeeds with a
day count of 5, leaving the balance at 20 and the request Pending;
approving it sets the balance to 15; a subsequent Annual request for 16
days fails with an insufficient-balance error reporting available 15 and
requested 16, and appends no request. -/
theorem claim_C1 :
    (register_employee emptySys "EMP001" "Alice Johnson" "alice@company.com"
        "Engineering" "2024-01-01").1 = .ok ⟨"EMP001", 20⟩ ∧
    (let s1 := (register_employee emptySys "EMP001" "Alice Johnson" "alice@company.com"
        "Engineering" "2024-01-01").2
     balG s1 "EMP001" = 20 ∧
     (let sub1 := request_leave s1 "EMP001" "2024-12-23" "2024-12-27" "Annual"
        "Christmas holiday" "2024-12-01"
      sub1.1 = .ok ⟨"REQ0001", "Alice Johnson", "2024-12-23 to 2024-12-27", 5, "Pending"⟩ ∧
      balG sub1.2 "EMP001" = 20 ∧
      sub1.2.leave_requests.map (fun r => (r.request_id, r.status, r.days)) =
        [("REQ0001", "Pending", 5)] ∧
      (let ap := approve_leave sub1.2 "REQ0001" "MANAGER" "2024-12-02"
       ap.1 = .ok ⟨"REQ0001", "Alice Johnson", 5, 15⟩ ∧
       balG ap.2 "EMP001" = 15 ∧
       (let sub2 := request_leave ap.2 "EMP001" "2025-01-01" "2025-01-16" "Annual"
          "" "2024-12-03"
        sub2.1 = .error (.insufficientBalance 15 16) ∧
        sub2.2 = ap.2)))) := by
  decide

/-- C10: the relevance score is additive over the whitespace-split token
list of the query, duplicates included: the score of a token list
`t1 ++ t2` is the sum of the scores of `t1` and `t2`, and a token repeated
`n` times contributes `n` times its single contribution; `search_policies`
scores each document by `docScoreWords` applied to the split query. -/
theorem claim_C10 (doc : Policy) (query : String) (t1 t2 : List (List Char))
    (n : Nat) (w : List Char) :
    docScoreWords (t1 ++ t2) (lowerL doc.title.data) (lowerL doc.content.data) =
      docScoreWords t1 (lowerL doc.title.data) (lowerL doc.content.data) +
      docScoreWords t2 (lowerL doc.title.data) (lowerL doc.content.data) ∧
    docScoreWords (List.replicate n w) (lowerL doc.title.data) (lowerL doc.content.data) =
      n * docScoreWords [w] (lowerL doc.title.data) (lowerL doc.content.data) ∧
    docScore query doc =
      docScoreWords (pySplit (lowerL query.data))
        (lowerL doc.title.data) (lowerL doc.content.data) := by
  refine ⟨?_, ?_, rfl⟩
  · simp only [docScoreWords_eq_sum, List.map_append, List.sum_append]
  · simp [docScoreWords_eq_sum, List.sum_replicate, smul_eq_mul]

/-- C5: every result of `search_policies` is the entry of a stored document
carrying exactly the spec's score (sum over lowercase query words of 10 per
title substring hit plus body occurrence count), that score is positive,
and a document whose score is zero contributes no entry to the results. -/
theorem claim_C5 (kb : List Policy) (query : String) (category : Option String)
    (max_results : Nat) :
    (∀ r ∈ search_policies kb query category max_results,
      ∃ doc ∈ kb, r = mkRanked doc (specScore query doc) ∧ 0 < specScore query doc) ∧
    (∀ doc ∈ kb, specScore query doc = 0 →
      mkRanked doc (specScore query doc) ∉ search_policies kb query category max_results) := by
  have hA : ∀ r ∈ search_policies kb query category max_results,
      ∃ doc ∈ kb, r = mkRanked doc (specScore query doc) ∧ 0 < specScore query doc := by
    intro r hr
    have hr1 : r ∈ sortByScoreDesc (buildResults kb query category) :=
      (List.take_sublist _ _).subset hr
    have hr2 : r ∈ buildResults kb query category := mem_sortByScoreDesc.mp hr1
    unfold buildResults at hr2
    obtain ⟨doc, hdoc, hmk⟩ := List.mem_filterMap.mp hr2
    by_cases hc : catPass category doc
    · rw [if_pos hc] at hmk
      by_cases hs : docScore query doc > 0
      · rw [if_pos hs, Option.some_inj] at hmk
        exact ⟨doc, hdoc, by rw [← hmk, docScore_eq_specScore],
          by rw [← docScore_eq_specScore]; exact hs⟩
      · rw [if_neg hs] at hmk
        cases hmk
    · rw [if_neg hc] at hmk
      cases hmk
  refine ⟨hA, ?_⟩
  intro doc hdoc h0 hmem
  obtain ⟨doc', _, heq, hpos⟩ := hA _ hmem
  have hscore := congrArg RankedResult.relevance_score heq
  simp only [mkRanked] at hscore
  omega

def polW : Policy :=
  ⟨"POL001", "Annual Leave Policy", "Annual leave must be requested in advance.",
    "Annual", "2024-01-01 09:00:00", 7⟩

def polZ : Policy :=
  ⟨"POL004", "Remote Work", "Equipment may be reimbursed.",
    "Remote", "2024-01-01 09:00:00", 4⟩

theorem claim_C5_witness :
    (∃ doc ∈ [polW, polZ],
      mkRanked polW (specScore "leave" polW) = mkRanked doc (specScore "leave" doc) ∧
      0 < specScore "leave" doc) ∧
    mkRanked polZ (specScore "leave" polZ) ∉ search_policies [polW, polZ] "leave" none 3 :=
  ⟨(claim_C5 [polW, polZ] "leave" none 3).1 _ (by decide),
   (claim_C5 [polW, polZ] "leave" none 3).2 polZ (by decide) (by decide)⟩

/-- C6: search results are sorted by non-increasing relevance score, ties
keep the insertion order of the underlying documents (equal-score results
form a sub-sequence of the scan's insertion-ordered list), and at most
`max_results` results (3 by the Python default) are returned. -/
theorem claim_C6 (kb : List Policy) (query : String) (category : Option String)
    (max_results : Nat) :
    (search_policies kb query category max_results).Pairwise scoreGE ∧
    (search_policies kb query category max_results).length ≤ max_results ∧
    ∀ s : Nat,
      List.Sublist
        ((search_policies kb query category max_results).filter
          (fun r => r.relevance_score == s))
        ((buildResults kb query category).filter (fun r => r.relevance_score == s)) := by
  refine ⟨?_, ?_, ?_⟩
  · exact List.Pairwise.sublist (List.take_sublist _ _) (pairwise_sortByScoreDesc _)
  · exact List.length_take_le _ _
  · intro s
    have h1 : List.Sublist
        ((search_policies kb query category max_results).filter
          (fun r => r.relevance_score == s))
        ((sortByScoreDesc (buildResults kb query category)).filter
          (fun r => r.relevance_score == s)) :=
      (List.take_sublist _ _).filter _
    rwa [filter_sortByScoreDesc] at h1

/-- Two Annual requests, each within the balance at its own submission,
submitted while both are Pending, then both approved — only public
operations, no validation bypassed. -/
def doubleBookTrace : List Op :=
  [.register "EMP001" "Alice Johnson" "alice@company.com" "Engineering" "2024-01-01",
   .request "EMP001" "2024-03-01" "2024-03-20" "Annual" "spring" "2024-01-02",
   .request "EMP001" "2024-04-01" "2024-04-20" "Annual" "more spring" "2024-01-03",
   .approve "REQ0001" "MANAGER" "2024-01-04",
   .approve "REQ0002" "MANAGER" "2024-01-05"]

/-- C2 counterexample: through the public interface alone (register, two
20-day Annual submissions while the first is still Pending, two approvals)
the ledger balance of `EMP001` reaches −20: approval drives a
balance-checked balance below zero, because approval never re-checks the
ledger. -/
theorem claim_C2_counterexample :
    (run doubleBookTrace).leave_requests.map (fun r => (r.status, r.days)) =
      [("Approved", 20), ("Approved", 20)] ∧
    balG (run doubleBookTrace) "EMP001" = -20 ∧
    balG (run doubleBookTrace) "EMP001" < 0 := by
  decide

/-- C2 amended: the claim holds once concurrently Pending annual requests
are ruled out — for every trace of public operations in which each Annual
submission happens while its employee has no other Pending annual request
(`safeOps`), every ledger balance in the reached state is non-negative; in
general, overlapping Pending annual requests can drive a balance negative,
as the counterexample shows. -/
theorem claim_C2_amended (ops : List Op) (hsafe : safeOps emptySys ops = true) :
    ∀ e, 0 ≤ balG (run ops) e :=
  (BalInv_safeOps ops emptySys BalInv_empty hsafe).1

def safeTrace : List Op :=
  [.register "EMP001" "Alice Johnson" "alice@company.com" "Engineering" "2024-01-01",
   .request "EMP001" "2024-12-23" "2024-12-27" "Annual" "Christmas" "2024-12-01",
   .approve "REQ0001" "MANAGER" "2024-12-02",
   .request "EMP001" "2025-01-02" "2025-01-05" "Annual" "ski" "2024-12-03"]

theorem claim_C2_amended_witness : 0 ≤ balG (run safeTrace) "EMP001" :=
  claim_C2_amended safeTrace (by decide) "EMP001"

/-- A state holding exactly one registered employee (balance 20). -/
def oneEmpState : SysState :=
  (register_employee emptySys "EMP001" "Alice Johnson" "alice@company.com"
    "Engineering" "2024-01-01").2

/-- C3 counterexample: `add_leave_balance` is an operation of the system
other than approve, yet it changes a ledger balance (20 to 25 here);
registration, likewise, sets the new employee's entry to 20. -/
theorem claim_C3_counterexample :
    balG (add_leave_balance oneEmpState "EMP001" 5).2 "EMP001" = 25 ∧
    balG oneEmpState "EMP001" = 20 ∧
    balG emptySys "EMP001" = 0 := by
  decide

/-- C3 amended: within the request lifecycle, approve is the only mutation
path for the ledger — submitting and rejecting leave every balance
untouched; outside the lifecycle, however, `register_employee` creates the
new employee's entry with 20 days and the admin tool `add_leave_balance`
adjusts an entry, so they are further ledger writers. -/
theorem claim_C3_amended (st : SysState) (e sd ed lt rs rid rj ap t t' : String) :
    (request_leave st e sd ed lt rs t).2.leave_balance = st.leave_balance ∧
    (reject_leave st rid rj ap t').2.leave_balance = st.leave_balance := by
  constructor
  · unfold request_leave
    cases lookupA st.employees e with
    | none => rfl
    | some emp =>
      cases parseDate sd with
      | none => rfl
      | some d1 =>
        cases parseDate ed with
        | none => rfl
        | some d2 =>
          dsimp only
          split
          · rfl
          · split
            · rfl
            · rfl
  · unfold reject_leave
    cases h : rejectLoop rid rj ap t' st.leave_requests with
    | mk res reqs' => rfl

theorem claim_C3_amended_witness :
    (request_leave oneEmpState "EMP001" "2024-12-23" "2024-12-27" "Annual" ""
      "2024-12-01").2.leave_balance = oneEmpState.leave_balance ∧
    (reject_leave oneEmpState "REQ0001" "no" "MANAGER"
      "2024-12-02").2.leave_balance = oneEmpState.leave_balance :=
  claim_C3_amended oneEmpState "EMP001" "2024-12-23" "2024-12-27" "Annual" ""
    "REQ0001" "no" "MANAGER" "2024-12-01" "2024-12-02"

theorem approveLoop_resolved (rid ap t : String) (bal : List (String × Int))
    (reqs : List LeaveRequest) (r : LeaveRequest)
    (hf : reqs.find? (fun q => q.request_id == rid) = some r)
    (hs : r.status ≠ "Pending") :
    approveLoop rid ap t bal reqs =
      (.error (.requestAlreadyResolved r.status), reqs, bal) := by
  induction reqs with
  | nil => simp [List.find?] at hf
  | cons q rest ih =>
    by_cases hq : q.request_id = rid
    · have hqr : q = r := by simpa [List.find?_cons, hq] using hf
      subst hqr
      unfold approveLoop
      rw [if_pos hq, if_pos hs]
    · have hf' : rest.find? (fun q => q.request_id == rid) = some r := by
        simpa [List.find?_cons, hq] using hf
      unfold approveLoop
      rw [if_neg hq, ih hf']

theorem rejectLoop_resolved (rid rj ap t : String)
    (reqs : List LeaveRequest) (r : LeaveRequest)
    (hf : reqs.find? (fun q => q.request_id == rid) = some r)
    (hs : r.status ≠ "Pending") :
    rejectLoop rid rj ap t reqs = (.error (.requestAlreadyResolved r.status), reqs) := by
  induction reqs with
  | nil => simp [List.find?] at hf
  | cons q rest ih =>
    by_cases hq : q.request_id = rid
    · have hqr : q = r := by simpa [List.find?_cons, hq] using hf
      subst hqr
      unfold rejectLoop
      rw [if_pos hq, if_pos hs]
    · have hf' : rest.find? (fun q => q.request_id == rid) = some r := by
        simpa [List.find?_cons, hq] using hf
      unfold rejectLoop
      rw [if_neg hq, ih hf']

/-- C4: approving or rejecting a request whose current status is terminal
(Approved or Rejected) returns the invalid-state error carrying that
status, and the whole system state — every request field, the request log
and the ledger — is returned unchanged. -/
theorem claim_C4 (st : SysState) (rid ap rj t t' : String) (r : LeaveRequest)
    (hf : st.leave_requests.find? (fun q => q.request_id == rid) = some r)
    (hs : r.status = "Approved" ∨ r.status = "Rejected") :
    approve_leave st rid ap t = (.error (.requestAlreadyResolved r.status), st) ∧
    reject_leave st rid rj ap t' = (.error (.requestAlreadyResolved r.status), st) := by
  have hns : r.status ≠ "Pending" := by
    rcases hs with h | h <;> simp [h]
  constructor
  · unfold approve_leave
    rw [approveLoop_resolved rid ap t st.leave_balance st.leave_requests r hf hns]
  · unfold reject_leave
    rw [rejectLoop_resolved rid rj ap t' st.leave_requests r hf hns]

def c4Req : LeaveRequest :=
  ⟨"REQ0001", "EMP001", "Alice Johnson", "2024-12-23", "2024-12-27", 5, "Annual",
    "Christmas holiday", "Approved", "2024-12-01", some "MANAGER",
    some "2024-12-02", none, none, none⟩

def c4State : SysState :=
  ⟨[("EMP001", ⟨"EMP001", "Alice Johnson", "alice@company.com", "Engineering",
      "2024-01-01", "Active"⟩)],
    [c4Req], [("EMP001", 15)]⟩

theorem claim_C4_witness :
    approve_leave c4State "REQ0001" "MANAGER" "2025-01-01" =
      (.error (.requestAlreadyResolved c4Req.status), c4State) ∧
    reject_leave c4State "REQ0001" "no" "MANAGER" "2025-01-01" =
      (.error (.requestAlreadyResolved c4Req.status), c4State) :=
  claim_C4 c4State "REQ0001" "MANAGER" "no" "2025-01-01" "2025-01-01" c4Req
    (by decide) (Or.inl (by decide))

/-- C8: when the employee exists, a submission with an unparseable date
returns the invalid-date error with the state unchanged; with both dates
parsed, the day count is the ordinal difference (end minus start) plus one
— any request the call creates carries exactly that count — and a count
below one yields the invalid-range error with no request created. -/
theorem claim_C8 (st : SysState) (e sd ed lt rs t : String)
    (he : (lookupA st.employees e).isSome) :
    ((parseDate sd = none ∨ parseDate ed = none) →
      request_leave st e sd ed lt rs t = (.error .invalidDateFormat, st)) ∧
    (∀ d1 d2, parseDate sd = some d1 → parseDate ed = some d2 →
      (((toOrdinal d2 : Int) - (toOrdinal d1 : Int) + 1 < 1 →
        request_leave st e sd ed lt rs t = (.error .endBeforeStart, st)) ∧
      (∀ ok, (request_leave st e sd ed lt rs t).1 = .ok ok →
        ok.days = (toOrdinal d2 : Int) - (toOrdinal d1 : Int) + 1) ∧
      (∀ req, req ∈ (request_leave st e sd ed lt rs t).2.leave_requests →
        req ∉ st.leave_requests →
        req.days = (toOrdinal d2 : Int) - (toOrdinal d1 : Int) + 1))) := by
  obtain ⟨emp, hemp⟩ := Option.isSome_iff_exists.mp he
  constructor
  · intro h
    unfold request_leave
    rw [hemp]
    rcases h with h | h
    · rw [h]
    · rw [h]
      cases parseDate sd <;> rfl
  · intro d1 d2 h1 h2
    unfold request_leave
    rw [hemp, h1, h2]
    dsimp only
    by_cases hle : (toOrdinal d2 : Int) - (toOrdinal d1 : Int) + 1 ≤ 0
    · rw [if_pos hle]
      refine ⟨fun _ => rfl, ?_, ?_⟩
      · intro ok hok
        cases hok
      · intro req hreq hnot
        exact absurd hreq hnot
    · rw [if_neg hle]
      refine ⟨fun hlt => absurd (by omega) hle, ?_, ?_⟩
      · intro ok hok
        split at hok
        · cases hok
        · cases hok
          rfl
      · intro req hreq hnot
        split at hreq
        · exact absurd hreq hnot
        · rcases List.mem_append.mp hreq with hmem | hmem
          · exact absurd hmem hnot
          · rcases List.mem_singleton.mp hmem with rfl
            rfl

theorem claim_C8_witness :
    request_leave oneEmpState "EMP001" "2024-02-30" "2024-03-05" "Annual" ""
        "2024-01-01" = (.error .invalidDateFormat, oneEmpState) ∧
    request_leave oneEmpState "EMP001" "2024-12-23" "2024-12-20" "Annual" ""
        "2024-01-01" = (.error .endBeforeStart, oneEmpState) :=
  ⟨(claim_C8 oneEmpState "EMP001" "2024-02-30" "2024-03-05" "Annual" ""
      "2024-01-01" (by decide)).1 (Or.inl (by decide)),
   (((claim_C8 oneEmpState "EMP001" "2024-12-23" "2024-12-20" "Annual" ""
      "2024-01-01" (by decide)).2 ⟨2024, 12, 23⟩ ⟨2024, 12, 20⟩
      (by decide) (by decide)).1 (by decide))⟩

/-- C9: in every reachable state the request log carries, in submission
order, exactly the zero-padded sequential identifiers REQ0001, REQ0002, …
(so identifiers are strictly increasing in submission order and unique),
and every further operation either leaves that identifier sequence
untouched (approve/reject mutate in place, failures change nothing) or
appends the next sequential identifier — the log order never changes with
later status changes. -/
theorem claim_C9 (ops : List Op) :
    idsOf (run ops).leave_requests =
      (List.range (run ops).leave_requests.length).map (fun k => reqIdOf (k + 1)) ∧
    (idsOf (run ops).leave_requests).Nodup ∧
    ∀ op : Op,
      idsOf (step (run ops) op).leave_requests = idsOf (run ops).leave_requests ∨
      idsOf (step (run ops) op).leave_requests =
        idsOf (run ops).leave_requests ++
          [reqIdOf ((run ops).leave_requests.length + 1)] :=
  ⟨canonicalIds_run ops, canonicalIds_nodup (canonicalIds_run ops),
    fun op => idsOf_step (run ops) op⟩

/-- C7: `ask_policy_question` consults `search_policies` with
`max_results = 3`; its confidence is "low" exactly when that search is
empty (and then its sources are empty), "medium" for exactly one result,
"high" for two or more; and it reports one (title, id) source per
result. -/
theorem claim_C7 (kb : List Policy) (question : String) (category : Option String) :
    (ask_policy_question kb question category).confidence =
      (if 2 ≤ (search_policies kb question category 3).length then "high"
       else if (search_policies kb question category 3).length = 1 then "medium"
       else "low") ∧
    (ask_policy_question kb question category).sources =
      (search_policies kb question category 3).map (fun r => (r.title, r.policy_id)) := by
  unfold ask_policy_question
  cases hl : search_policies kb question category 3 with
  | nil => simp
  | cons x xs =>
    cases xs with
    | nil => simp
    | cons y ys => simp [Nat.succ_le_succ, Nat.le_add_left]
